import Mathlib

/-!
Verification of the regularized linear-decoder autoencoder
(`AutoencoderLinearDecoder.py`).  We give a shallow embedding of the
proximal operators `ProxOperL1` and `ProxOperGroupL2`, the operator
registry `get_prox_operators`, the composite linear decoder's forward
pass and inactivity count, and the training loop's pre-training
validation and epoch-end diagnostics, and we prove theorems settling
the specification claims about them.  Matrices are real matrices
indexed by `Fin`; weight blocks of possibly different widths are
families indexed by their position in the fixed key order
`('annotated', 'sparse', 'dense')`.
-/

/-- The three weight-block names, `TERMS_KEYS = ('annotated', 'sparse', 'dense')`,
in their fixed order. -/
inductive TermKey
  | annotated
  | sparse
  | dense
deriving DecidableEq

/-- The Python string naming each term key. -/
def TermKey.pyName : TermKey → String
  | .annotated => "annotated"
  | .sparse => "sparse"
  | .dense => "dense"

/-- Per-column L2 norm `W.norm(p=2, dim=0)`: the norm of column `j`
taken over the gene (row) axis. -/
noncomputable def colNorm {m n : ℕ} (W : Matrix (Fin m) (Fin n) ℝ) (j : Fin n) : ℝ :=
  Real.sqrt (∑ i, W i j ^ 2)

/-- The per-column divisor of `ProxOperGroupL2.__call__`:
`scaled_norm_vector = norm_vect/self._group_coeff` followed by
`scaled_norm_vector += (~(scaled_norm_vector>0)).float()`, which guards the
division `W/scaled_norm_vector` against a zero-norm column. -/
noncomputable def groupDivisor {m n : ℕ} (g : Fin n → ℝ) (W : Matrix (Fin m) (Fin n) ℝ)
    (j : Fin n) : ℝ :=
  colNorm W j / g j + (if 0 < colNorm W j / g j then 0 else 1)

/-- `ProxOperGroupL2.__call__` with per-group coefficient vector `g`
(the source's `self._group_coeff`, a scalar broadcast over columns or
`omega*alpha`): `W -= W/scaled_norm_vector` followed by
`W *= (norm_vect>self._group_coeff).float()`. -/
noncomputable def ProxOperGroupL2 {m n : ℕ} (g : Fin n → ℝ) (W : Matrix (Fin m) (Fin n) ℝ) :
    Matrix (Fin m) (Fin n) ℝ := fun i j =>
  (W i j - W i j / groupDivisor g W j) * (if g j < colNorm W j then 1 else 0)

/-- One entry of `ProxOperL1.__call__`.  `act` is the entry of the stored
mask `self._I = ~I.bool()` (constantly `true` when no mask was supplied):
the three boolean tensors `W_geq_alpha`, `W_leq_neg_alpha`, `W_cond_joint`
are computed from the original `W` (each conjoined with `self._I` when a
mask is present), then `W -= W_geq_alpha.float()*alpha`,
`W += W_leq_neg_alpha.float()*alpha`, `W -= W_cond_joint.float()*W` run in
order, the last one reading the already-updated `W`. -/
noncomputable def ProxOperL1Entry (alpha w : ℝ) (act : Bool) : ℝ :=
  let w1 := w - (if alpha ≤ w ∧ act = true then alpha else 0)
  let w2 := w1 + (if w ≤ -alpha ∧ act = true then alpha else 0)
  w2 - (if (¬ alpha ≤ w ∧ ¬ w ≤ -alpha) ∧ act = true then w2 else 0)

/-- `ProxOperL1.__call__` on a whole matrix, with the optional construction
mask `I` (the annotation block: entries with annotation value `1` are
exempted, since `self._I = ~I.bool()`). -/
noncomputable def ProxOperL1 {m n : ℕ} (alpha : ℝ) (I : Option (Matrix (Fin m) (Fin n) Bool))
    (W : Matrix (Fin m) (Fin n) ℝ) : Matrix (Fin m) (Fin n) ℝ := fun i j =>
  ProxOperL1Entry alpha (W i j)
    (match I with
     | none => true
     | some M => ! M i j)

/-- The standard soft-thresholding formula `sign(w)·max(|w|-α, 0)` as the
specification states it (for comparison with `ProxOperL1`). -/
noncomputable def softThreshSpec (alpha w : ℝ) : ℝ :=
  Real.sign w * max (|w| - alpha) 0

/-- The mapping `ops_dct` built by `get_prox_operators`: an optional
composed operator for the annotated and sparse blocks, and an operator for
the dense block, which is unconditionally inserted. -/
structure ProxOps (m na ns nd : ℕ) where
  annot_op : Option (Matrix (Fin m) (Fin na) ℝ → Matrix (Fin m) (Fin na) ℝ)
  sparse_op : Option (Matrix (Fin m) (Fin ns) ℝ → Matrix (Fin m) (Fin ns) ℝ)
  dense_op : Matrix (Fin m) (Fin nd) ℝ → Matrix (Fin m) (Fin nd) ℝ

/-- The group operator `p_gr` of `get_prox_operators`:
`ProxOperGroupL2(lambda3)` when `lambda3` is set, the identity
`lambda W: W` otherwise. -/
noncomputable def apply_group {m k : ℕ} (lambda3 : Option ℝ)
    (W : Matrix (Fin m) (Fin k) ℝ) : Matrix (Fin m) (Fin k) ℝ :=
  match lambda3 with
  | some a => ProxOperGroupL2 (fun _ => a) W
  | none => W

/-- `get_prox_operators(I, lambda1, lambda2, lambda3)`: the annotated entry
is `lambda W: p_gr(p_l1_annot(W))` when `lambda1` is set, the sparse entry
`lambda W: p_gr(p_l1_sparse(W))` when `lambda2` is set, and the dense entry
`lambda W: p_gr(W)` always. -/
noncomputable def get_prox_operators {m na ns nd : ℕ} (I : Matrix (Fin m) (Fin na) Bool)
    (lambda1 lambda2 lambda3 : Option ℝ) : ProxOps m na ns nd where
  annot_op := lambda1.map fun l1 W => apply_group lambda3 (ProxOperL1 l1 (some I) W)
  sparse_op := lambda2.map fun l2 W => apply_group lambda3 (ProxOperL1 l2 none W)
  dense_op := fun W => apply_group lambda3 W

/-- Membership `k in ops_dct` for the mapping built by `get_prox_operators`. -/
def ProxOps.hasKey {m na ns nd : ℕ} (ops : ProxOps m na ns nd) : TermKey → Bool
  | .annotated => ops.annot_op.isSome
  | .sparse => ops.sparse_op.isSome
  | .dense => true

/-- The pre-training validation loop of `train_autoencoder`:
`for k in term_keys: if k not in prox_ops: raise ValueError(...)`,
returning the raised message, or `none` when every key passes. -/
def check_prox_ops : List TermKey → (TermKey → Bool) → Option String
  | [], _ => none
  | k :: ks, has =>
      if has k then check_prox_ops ks has
      else some ("Provide regularization coefficient for " ++ k.pyName)

/-- The epoch loop of `train_autoencoder`, abstracted to the events the
error-handling claims are about: each epoch draws `steps` batches
(`for step in range(int(adata.n_obs/batch_size))`) and then runs the
epoch-end diagnostics, which unconditionally read
`weight_dict[TERMS_KEYS[0]]` and hence raise a `KeyError` when the
annotated block is absent.  On success the total number of batches drawn
is returned; on failure the error message together with the number of
batches drawn before the failure. -/
def epoch_loop (present : List TermKey) (steps : ℕ) : ℕ → Except (String × ℕ) ℕ
  | 0 => Except.ok 0
  | e + 1 =>
      if TermKey.annotated ∈ present then
        match epoch_loop present steps e with
        | Except.ok n => Except.ok (steps + n)
        | Except.error p => Except.error (p.1, steps + p.2)
      else
        Except.error ("KeyError: " ++ TermKey.annotated.pyName, steps)

/-- `train_autoencoder` restricted to its control flow: the validation of
`prox_ops` against the decoder's keys runs first, before any batch is
drawn, and only then does the epoch loop start. -/
def train_sim (present : List TermKey) (has : TermKey → Bool) (epochs steps : ℕ) :
    Except (String × ℕ) ℕ :=
  match check_prox_ops present has with
  | some msg => Except.error (msg, 0)
  | none => epoch_loop present steps epochs

/-- The horizontal concatenation `torch.cat(vals, dim=1)` of the decoder's
weight blocks `Wb`, a family indexed by their position in the fixed key
order, with per-block column counts `ks`. -/
def matCat {v N : ℕ} (ks : Fin N → ℕ) (Wb : ∀ t, Matrix (Fin v) (Fin (ks t)) ℝ) :
    Matrix (Fin v) ((t : Fin N) × Fin (ks t)) ℝ := fun r c => Wb c.1 r c.2

namespace CompositeLinearDecoder

/-- The general branch of `CompositeLinearDecoder.forward`:
`x.matmul(torch.cat(vals, dim=1).t())`. -/
noncomputable def forward {b v N : ℕ} (ks : Fin N → ℕ)
    (Wb : ∀ t, Matrix (Fin v) (Fin (ks t)) ℝ)
    (x : Matrix (Fin b) ((t : Fin N) × Fin (ks t)) ℝ) : Matrix (Fin b) (Fin v) ℝ :=
  x * (matCat ks Wb).transpose

/-- The single-block fast path of `CompositeLinearDecoder.forward`
(`len(vals) == 1`): `x.matmul(vals[0].t())`. -/
noncomputable def forward_single {b v k : ℕ} (W : Matrix (Fin v) (Fin k) ℝ)
    (x : Matrix (Fin b) (Fin k) ℝ) : Matrix (Fin b) (Fin v) ℝ :=
  x * W.transpose

/-- `CompositeLinearDecoder.n_inactive_terms`: over every active block,
`n += (~(v.data.norm(p=2, dim=0)>0)).float().sum()`, returned as an
integer. -/
noncomputable def n_inactive_terms {v N : ℕ} (ks : Fin N → ℕ)
    (Wb : ∀ t, Matrix (Fin v) (Fin (ks t)) ℝ) : ℕ :=
  ∑ t, (Finset.univ.filter fun j => ¬ 0 < colNorm (Wb t) j).card

end CompositeLinearDecoder

/-- `n_inact_genes = (1-adata.varm['I']).sum()` from `train_autoencoder`:
the number of zero entries of the annotation matrix. -/
def n_inact_genes {v n : ℕ} (I : Matrix (Fin v) (Fin n) Bool) : ℕ :=
  ∑ i, ∑ j, (1 - (if I i j then 1 else 0))

/-- `n_deact_genes = (~(weight_dict['annotated'].data.abs()>0)).float().sum()`
from the epoch-end diagnostics of `train_autoencoder`: the number of zero
entries of the annotated weight block. -/
noncomputable def n_deact_genes {v n : ℕ} (W : Matrix (Fin v) (Fin n) ℝ) : ℕ :=
  ∑ i, ∑ j, (if ¬ 0 < |W i j| then 1 else 0)

/-- The emitted `'Share of deactivated inactive genes'` value
`n_deact_genes/n_inact_genes`. -/
noncomputable def deact_share {v n : ℕ} (I : Matrix (Fin v) (Fin n) Bool)
    (W : Matrix (Fin v) (Fin n) ℝ) : ℝ :=
  (n_deact_genes W : ℝ) / (n_inact_genes I : ℝ)

/-- The deactivated-gene share as the specification describes it: genes
whose entire annotated-block row is zero, divided by genes whose
annotation-mask row sum is zero (for comparison with `deact_share`). -/
noncomputable def deact_share_spec {v n : ℕ} (I : Matrix (Fin v) (Fin n) Bool)
    (W : Matrix (Fin v) (Fin n) ℝ) : ℝ :=
  ((Finset.univ.filter fun i : Fin v => ∀ j, W i j = 0).card : ℝ) /
  ((Finset.univ.filter fun i : Fin v => (∑ j, (if I i j then (1 : ℕ) else 0)) = 0).card : ℝ)

/-! ### Helper lemmas -/

theorem colNorm_nonneg {m n : ℕ} (W : Matrix (Fin m) (Fin n) ℝ) (j : Fin n) :
    0 ≤ colNorm W j :=
  Real.sqrt_nonneg _

/-- An entry exempted by the mask (`self._I` false there) is returned
unchanged. -/
theorem ProxOperL1Entry_inactive (alpha w : ℝ) : ProxOperL1Entry alpha w false = w := by
  simp [ProxOperL1Entry]

/-- On an entry the mask keeps active, `ProxOperL1` computes the standard
soft-thresholding formula. -/
theorem ProxOperL1Entry_active (alpha w : ℝ) (ha : 0 < alpha) :
    ProxOperL1Entry alpha w true = softThreshSpec alpha w := by
  simp only [ProxOperL1Entry, softThreshSpec]
  rcases le_or_lt alpha w with h1 | h1
  · have hw : 0 < w := lt_of_lt_of_le ha h1
    have h2 : ¬ w ≤ -alpha := by linarith
    rw [if_pos ⟨h1, trivial⟩, if_neg (fun h => h2 h.1), if_neg (fun h => h.1.1 h1)]
    rw [Real.sign_of_pos hw, abs_of_pos hw, one_mul, max_eq_left (by linarith)]
    ring
  · rcases le_or_lt w (-alpha) with h2 | h2
    · have hw : w < 0 := by linarith
      have h1' : ¬ alpha ≤ w := not_le.mpr h1
      rw [if_neg (fun h => h1' h.1), if_pos ⟨h2, trivial⟩, if_neg (fun h => h.1.2 h2)]
      rw [Real.sign_of_neg hw, abs_of_neg hw, max_eq_left (by linarith)]
      ring
    · have h1' : ¬ alpha ≤ w := not_le.mpr h1
      have h2' : ¬ w ≤ -alpha := not_le.mpr h2
      rw [if_neg (fun h => h1' h.1), if_neg (fun h => h2' h.1), if_pos ⟨⟨h1', h2'⟩, trivial⟩]
      have habs : |w| < alpha := abs_lt.mpr ⟨by linarith, h1⟩
      rw [max_eq_right (by linarith), mul_zero]
      ring

/-- A column that is already identically zero is mapped to zero by the
group operator (no division error: the subtracted term is `0/divisor`). -/
theorem ProxOperGroupL2_zero_col {m n : ℕ} (g : Fin n → ℝ) (A : Matrix (Fin m) (Fin n) ℝ)
    (j : Fin n) (h : ∀ i, A i j = 0) (i : Fin m) : ProxOperGroupL2 g A i j = 0 := by
  simp [ProxOperGroupL2, h i]

/-! ### Claims -/

/-- Claim C1: with `α>0` and no mask, `ProxOperL1` maps every entry `w` to
`sign(w)·max(|w|-α, 0)`; with a mask, entries whose annotation value is `1`
are returned exactly unchanged, and entries whose annotation value is `0`
are soft-thresholded. -/
theorem claim_c1 {m n : ℕ} (alpha : ℝ) (W : Matrix (Fin m) (Fin n) ℝ)
    (M : Matrix (Fin m) (Fin n) Bool) (i : Fin m) (j : Fin n) (ha : 0 < alpha) :
    ProxOperL1 alpha none W i j = softThreshSpec alpha (W i j) ∧
    (M i j = true → ProxOperL1 alpha (some M) W i j = W i j) ∧
    (M i j = false → ProxOperL1 alpha (some M) W i j = softThreshSpec alpha (W i j)) := by
  refine ⟨ProxOperL1Entry_active alpha (W i j) ha, fun hM => ?_, fun hM => ?_⟩
  · show ProxOperL1Entry alpha (W i j) (! M i j) = W i j
    rw [hM]
    exact ProxOperL1Entry_inactive alpha (W i j)
  · show ProxOperL1Entry alpha (W i j) (! M i j) = softThreshSpec alpha (W i j)
    rw [hM]
    exact ProxOperL1Entry_active alpha (W i j) ha

theorem claim_c1_witness :
    0 < (1 : ℝ) ∧
    (ProxOperL1 1 none (!![(2 : ℝ)]) 0 0 = softThreshSpec 1 ((!![(2 : ℝ)]) 0 0) ∧
     ((!![true]) 0 0 = true →
        ProxOperL1 1 (some (!![true])) (!![(2 : ℝ)]) 0 0 = (!![(2 : ℝ)]) 0 0) ∧
     ((!![true]) 0 0 = false →
        ProxOperL1 1 (some (!![true])) (!![(2 : ℝ)]) 0 0 = softThreshSpec 1 ((!![(2 : ℝ)]) 0 0))) :=
  ⟨by norm_num, claim_c1 1 (!![(2 : ℝ)]) (!![true]) 0 0 (by norm_num)⟩

/-- Claim C2: with a positive per-group threshold, a column whose L2 norm
is at most the threshold (including exact equality) becomes identically
zero, and a column whose norm `n` exceeds the threshold `g` is scaled by
`(1 - g/n)`, so its output norm is `n - g`. -/
theorem claim_c2 {m n : ℕ} (W : Matrix (Fin m) (Fin n) ℝ) (g : Fin n → ℝ) (j : Fin n)
    (hg : 0 < g j) :
    (colNorm W j ≤ g j → ∀ i, ProxOperGroupL2 g W i j = 0) ∧
    (g j < colNorm W j →
      (∀ i, ProxOperGroupL2 g W i j = (1 - g j / colNorm W j) * W i j) ∧
      colNorm (ProxOperGroupL2 g W) j = colNorm W j - g j) := by
  constructor
  · intro hle i
    unfold ProxOperGroupL2
    rw [if_neg (not_lt.mpr hle), mul_zero]
  · intro hgt
    have hn : 0 < colNorm W j := lt_trans hg hgt
    have hne : colNorm W j ≠ 0 := ne_of_gt hn
    have hge : g j ≠ 0 := ne_of_gt hg
    have hdiv : groupDivisor g W j = colNorm W j / g j := by
      unfold groupDivisor
      rw [if_pos (div_pos hn hg), add_zero]
    have hpt : ∀ i, ProxOperGroupL2 g W i j = (1 - g j / colNorm W j) * W i j := by
      intro i
      unfold ProxOperGroupL2
      rw [if_pos hgt, mul_one, hdiv, div_div_eq_mul_div]
      field_simp
      ring
    refine ⟨hpt, ?_⟩
    have hc : 0 ≤ 1 - g j / colNorm W j := by
      have h1 : g j / colNorm W j ≤ 1 := (div_le_one hn).mpr (le_of_lt hgt)
      linarith
    have hsum : ∑ i, ProxOperGroupL2 g W i j ^ 2
        = (1 - g j / colNorm W j) ^ 2 * ∑ i, W i j ^ 2 := by
      rw [Finset.mul_sum]
      refine Finset.sum_congr rfl fun i _ => ?_
      rw [hpt i, mul_pow]
    have hout : colNorm (ProxOperGroupL2 g W) j
        = Real.sqrt ((1 - g j / colNorm W j) ^ 2 * ∑ i, W i j ^ 2) := by
      rw [colNorm, hsum]
    rw [hout, Real.sqrt_mul (sq_nonneg _), Real.sqrt_sq hc]
    have hback : Real.sqrt (∑ i, W i j ^ 2) = colNorm W j := rfl
    rw [hback, sub_mul, one_mul, div_mul_cancel₀ _ hne]

theorem claim_c2_witness :
    0 < (1 : ℝ) ∧
    ((colNorm !![(3 : ℝ); 4] 0 ≤ 1 →
        ∀ i, ProxOperGroupL2 (fun _ => (1 : ℝ)) !![(3 : ℝ); 4] i 0 = 0) ∧
     (1 < colNorm !![(3 : ℝ); 4] 0 →
       (∀ i, ProxOperGroupL2 (fun _ => (1 : ℝ)) !![(3 : ℝ); 4] i 0 =
          (1 - 1 / colNorm !![(3 : ℝ); 4] 0) * (!![(3 : ℝ); 4]) i 0) ∧
       colNorm (ProxOperGroupL2 (fun _ => (1 : ℝ)) !![(3 : ℝ); 4]) 0 =
         colNorm !![(3 : ℝ); 4] 0 - 1)) :=
  ⟨by norm_num, claim_c2 !![(3 : ℝ); 4] (fun _ => 1) 0 (by norm_num)⟩

/-- Claim C3: on a zero-norm column the guarded divisor equals `1` (so no
division by zero occurs), every entry of the column is already zero, the
output column is zero, and applying the operator a second time leaves it
zero. -/
theorem claim_c3 {m n : ℕ} (W : Matrix (Fin m) (Fin n) ℝ) (g : Fin n → ℝ) (j : Fin n)
    (hg : 0 < g j) (h0 : colNorm W j = 0) :
    groupDivisor g W j = 1 ∧ (∀ i, W i j = 0) ∧
    (∀ i, ProxOperGroupL2 g W i j = 0) ∧
    (∀ i, ProxOperGroupL2 g (ProxOperGroupL2 g W) i j = 0) := by
  have hzero : ∀ i, W i j = 0 := by
    intro i
    have hsum : ∑ i, W i j ^ 2 = 0 := by
      have hnn : 0 ≤ ∑ i, W i j ^ 2 := Finset.sum_nonneg fun i _ => sq_nonneg _
      exact (Real.sqrt_eq_zero hnn).mp h0
    have := (Finset.sum_eq_zero_iff_of_nonneg fun i _ => sq_nonneg (W i j)).mp hsum
      i (Finset.mem_univ i)
    exact pow_eq_zero_iff two_ne_zero |>.mp this
  have hout : ∀ i, ProxOperGroupL2 g W i j = 0 :=
    ProxOperGroupL2_zero_col g W j hzero
  refine ⟨?_, hzero, hout, ProxOperGroupL2_zero_col g _ j hout⟩
  unfold groupDivisor
  rw [h0, zero_div, if_neg (lt_irrefl 0), zero_add]

theorem claim_c3_witness :
    (0 < (1 : ℝ) ∧ colNorm (0 : Matrix (Fin 2) (Fin 1) ℝ) 0 = 0) ∧
    (groupDivisor (fun _ => (1 : ℝ)) (0 : Matrix (Fin 2) (Fin 1) ℝ) 0 = 1 ∧
     (∀ i, (0 : Matrix (Fin 2) (Fin 1) ℝ) i 0 = 0) ∧
     (∀ i, ProxOperGroupL2 (fun _ => (1 : ℝ)) (0 : Matrix (Fin 2) (Fin 1) ℝ) i 0 = 0) ∧
     (∀ i, ProxOperGroupL2 (fun _ => (1 : ℝ))
        (ProxOperGroupL2 (fun _ => (1 : ℝ)) (0 : Matrix (Fin 2) (Fin 1) ℝ)) i 0 = 0)) :=
  ⟨⟨by norm_num, by simp [colNorm]⟩,
   claim_c3 (0 : Matrix (Fin 2) (Fin 1) ℝ) (fun _ => 1) 0 (by norm_num) (by simp [colNorm])⟩

/-- Claim C4: the registry composes the operators for the annotated and
sparse blocks as group-L2 applied to the result of L1 (L1 first, group
shrinkage second), with the group step the identity when λ3 is unset; and
for a 5×2 sparse block whose first column is constantly 0.5, with λ2 = 1
and λ3 = 1, the L1 step already maps every entry of that column to 0, so
the column reaching the group step is all-zero, and the composed operator
zeroes it as well. -/
theorem claim_c4 {m na ns nd : ℕ} (I : Matrix (Fin m) (Fin na) Bool)
    (a c : ℝ) (l3 : Option ℝ) (I5 : Matrix (Fin 5) (Fin na) Bool) (l1 : Option ℝ)
    (W : Matrix (Fin 5) (Fin 2) ℝ) (hW : ∀ i, W i 0 = 1 / 2) :
    (@get_prox_operators m na ns nd I (some a) (some c) l3).annot_op =
        some (fun V => apply_group l3 (ProxOperL1 a (some I) V)) ∧
    (@get_prox_operators m na ns nd I (some a) (some c) l3).sparse_op =
        some (fun V => apply_group l3 (ProxOperL1 c none V)) ∧
    (∀ V : Matrix (Fin m) (Fin ns) ℝ, apply_group none V = V) ∧
    (∀ i, ProxOperL1 (1 : ℝ) none W i 0 = 0) ∧
    (∀ f, (@get_prox_operators 5 na 2 nd I5 l1 (some 1) (some 1)).sparse_op = some f →
        ∀ i, f W i 0 = 0) := by
  have hL1 : ∀ i, ProxOperL1 (1 : ℝ) none W i 0 = 0 := by
    intro i
    show ProxOperL1Entry 1 (W i 0) true = 0
    rw [hW i]
    norm_num [ProxOperL1Entry]
  refine ⟨rfl, rfl, fun V => rfl, hL1, ?_⟩
  intro f hf i
  have hgf : (fun V => apply_group (some 1) (ProxOperL1 1 none V)) = f :=
    Option.some.inj hf
  rw [← hgf]
  show ProxOperGroupL2 (fun _ => 1) (ProxOperL1 1 none W) i 0 = 0
  exact ProxOperGroupL2_zero_col _ _ 0 hL1 i

theorem claim_c4_witness :
    (∀ i : Fin 5, (Matrix.of fun _ _ => (1 / 2 : ℝ) : Matrix (Fin 5) (Fin 2) ℝ) i 0 = 1 / 2) ∧
    ((@get_prox_operators 1 1 1 1 (!![true]) (some 2) (some 3) none).annot_op =
        some (fun V => apply_group none (ProxOperL1 2 (some (!![true])) V)) ∧
     (@get_prox_operators 1 1 1 1 (!![true]) (some 2) (some 3) none).sparse_op =
        some (fun V => apply_group none (ProxOperL1 3 none V)) ∧
     (∀ V : Matrix (Fin 1) (Fin 1) ℝ, apply_group none V = V) ∧
     (∀ i, ProxOperL1 (1 : ℝ) none
        (Matrix.of fun _ _ => (1 / 2 : ℝ) : Matrix (Fin 5) (Fin 2) ℝ) i 0 = 0) ∧
     (∀ f, (@get_prox_operators 5 1 2 1 (!![true; true; true; true; true]) none
              (some 1) (some 1)).sparse_op = some f →
        ∀ i, f (Matrix.of fun _ _ => (1 / 2 : ℝ) : Matrix (Fin 5) (Fin 2) ℝ) i 0 = 0)) :=
  ⟨fun _ => rfl,
   claim_c4 (!![true]) 2 3 none (!![true; true; true; true; true]) none
     (Matrix.of fun _ _ => (1 / 2 : ℝ)) (fun _ => rfl)⟩

/-- If some decoder key is missing from the operator mapping, the
validation loop stops at the first missing key with the source's error
message. -/
theorem check_prox_ops_missing (has : TermKey → Bool) (L : List TermKey) :
    ∀ k : TermKey, k ∈ L → has k = false →
      ∃ k', k' ∈ L ∧ has k' = false ∧
        check_prox_ops L has =
          some ("Provide regularization coefficient for " ++ k'.pyName) := by
  induction L with
  | nil => intro k hk _; exact absurd hk (List.not_mem_nil k)
  | cons a L ih =>
      intro k hk hfalse
      by_cases ha : has a = true
      · have hk' : k ∈ L := by
          cases hk with
          | head => exact absurd (ha.symm.trans hfalse) (by decide)
          | tail _ h => exact h
        obtain ⟨k', h1, h2, h3⟩ := ih k hk' hfalse
        refine ⟨k', List.mem_cons_of_mem a h1, h2, ?_⟩
        rw [check_prox_ops, if_pos ha]
        exact h3
      · have ha' : has a = false := by
          cases h : has a
          · rfl
          · exact absurd h ha
        refine ⟨a, List.mem_cons_self a L, ha', ?_⟩
        rw [check_prox_ops, if_neg (by simp [ha'])]

/-- Claim C5: the operator mapping always has a dense entry, whatever the
coefficients; and when some term-type present in the decoder has no entry,
`train_sim` fails with the error naming a missing term-type, with zero
batches drawn (before any batch, never mid-epoch). -/
theorem claim_c5 {m na ns nd : ℕ} (I : Matrix (Fin m) (Fin na) Bool) (l1 l2 l3 : Option ℝ)
    (present : List TermKey) (epochs steps : ℕ) (k : TermKey)
    (hk : k ∈ present)
    (hmiss : (@get_prox_operators m na ns nd I l1 l2 l3).hasKey k = false) :
    (@get_prox_operators m na ns nd I l1 l2 l3).hasKey TermKey.dense = true ∧
    ∃ k', k' ∈ present ∧ (@get_prox_operators m na ns nd I l1 l2 l3).hasKey k' = false ∧
      train_sim present (@get_prox_operators m na ns nd I l1 l2 l3).hasKey epochs steps =
        Except.error ("Provide regularization coefficient for " ++ k'.pyName, 0) := by
  refine ⟨rfl, ?_⟩
  obtain ⟨k', h1, h2, h3⟩ :=
    check_prox_ops_missing (@get_prox_operators m na ns nd I l1 l2 l3).hasKey present
      k hk hmiss
  refine ⟨k', h1, h2, ?_⟩
  unfold train_sim
  rw [h3]

theorem claim_c5_witness :
    (TermKey.annotated ∈ [TermKey.annotated] ∧
      (@get_prox_operators 1 1 1 1 (!![true]) none none none).hasKey TermKey.annotated =
        false) ∧
    ((@get_prox_operators 1 1 1 1 (!![true]) none none none).hasKey TermKey.dense = true ∧
     ∃ k', k' ∈ [TermKey.annotated] ∧
       (@get_prox_operators 1 1 1 1 (!![true]) none none none).hasKey k' = false ∧
       train_sim [TermKey.annotated]
           (@get_prox_operators 1 1 1 1 (!![true]) none none none).hasKey 3 4 =
         Except.error ("Provide regularization coefficient for " ++ k'.pyName, 0)) :=
  ⟨⟨List.mem_cons_self _ _, rfl⟩,
   claim_c5 (!![true]) none none none [TermKey.annotated] 3 4 TermKey.annotated
     (List.mem_cons_self _ _) rfl⟩

/-- Claim C9: when the decoder's blocks pass the pre-training validation
but do not include the annotated block, the first epoch's end-of-epoch
diagnostics fail (after that epoch's batches were already drawn); when the
annotated block is present, training completes without error. -/
theorem claim_c9 (present : List TermKey) (has : TermKey → Bool) (epochs steps : ℕ)
    (hok : check_prox_ops present has = none) (hpos : 0 < epochs) :
    (TermKey.annotated ∉ present →
        train_sim present has epochs steps =
          Except.error ("KeyError: " ++ TermKey.annotated.pyName, steps)) ∧
    (TermKey.annotated ∈ present →
        train_sim present has epochs steps = Except.ok (epochs * steps)) := by
  have hloop : ∀ e : ℕ, TermKey.annotated ∈ present →
      epoch_loop present steps e = Except.ok (e * steps) := by
    intro e hmem
    induction e with
    | zero => simp [epoch_loop]
    | succ e ih =>
        rw [epoch_loop, if_pos hmem, ih, Nat.succ_mul, Nat.add_comm]
  constructor
  · intro hnot
    unfold train_sim
    rw [hok]
    cases epochs with
    | zero => exact absurd hpos (lt_irrefl 0)
    | succ e =>
        show epoch_loop present steps (e + 1) = _
        rw [epoch_loop, if_neg hnot]
  · intro hmem
    unfold train_sim
    rw [hok]
    exact hloop epochs hmem

theorem claim_c9_witness :
    (check_prox_ops [TermKey.dense] (fun _ => true) = none ∧ 0 < 1) ∧
    ((TermKey.annotated ∉ [TermKey.dense] →
        train_sim [TermKey.dense] (fun _ => true) 1 2 =
          Except.error ("KeyError: " ++ TermKey.annotated.pyName, 2)) ∧
     (TermKey.annotated ∈ [TermKey.dense] →
        train_sim [TermKey.dense] (fun _ => true) 1 2 = Except.ok (1 * 2))) :=
  ⟨⟨rfl, by decide⟩, claim_c9 [TermKey.dense] (fun _ => true) 1 2 rfl (by decide)⟩

/-- Claim C6: the general forward pass is `x · Wᵗ` for `W` the horizontal
concatenation of the blocks in their fixed order — each output entry is
the ordered sum of the three blocks' contributions — and it is linear in
`x` (scaling `x` scales the output); the output has shape
`(batch, n_vars)` by the type of `forward`. -/
theorem claim_c6 {b v : ℕ} (ks : Fin 3 → ℕ) (Wb : ∀ t, Matrix (Fin v) (Fin (ks t)) ℝ)
    (x : Matrix (Fin b) ((t : Fin 3) × Fin (ks t)) ℝ) (r : Fin b) (i : Fin v) (c : ℝ) :
    CompositeLinearDecoder.forward ks Wb x r i =
      (∑ j : Fin (ks 0), x r ⟨0, j⟩ * Wb 0 i j) +
      (∑ j : Fin (ks 1), x r ⟨1, j⟩ * Wb 1 i j) +
      (∑ j : Fin (ks 2), x r ⟨2, j⟩ * Wb 2 i j) ∧
    CompositeLinearDecoder.forward ks Wb (c • x) =
      c • CompositeLinearDecoder.forward ks Wb x := by
  constructor
  · rw [CompositeLinearDecoder.forward, Matrix.mul_apply, ← Finset.univ_sigma_univ,
      Finset.sum_sigma, Fin.sum_univ_three]
    rfl
  · rw [CompositeLinearDecoder.forward, CompositeLinearDecoder.forward, Matrix.smul_mul]

/-- Claim C7: `n_inactive_terms` is exactly the number of columns, over
all active blocks, whose L2 norm over the gene axis is exactly zero. -/
theorem claim_c7 {v N : ℕ} (ks : Fin N → ℕ) (Wb : ∀ t, Matrix (Fin v) (Fin (ks t)) ℝ) :
    CompositeLinearDecoder.n_inactive_terms ks Wb =
      ∑ t, (Finset.univ.filter fun j => colNorm (Wb t) j = 0).card := by
  unfold CompositeLinearDecoder.n_inactive_terms
  refine Finset.sum_congr rfl fun t _ => ?_
  congr 1
  apply Finset.filter_congr
  intro j _
  constructor
  · intro h
    exact le_antisymm (not_lt.mp h) (colNorm_nonneg _ _)
  · intro h
    rw [h]
    exact lt_irrefl 0

/-- Claim C10: with exactly one active weight block, the single-block fast
path of `forward` agrees with the general concatenating path. -/
theorem claim_c10 {b v : ℕ} (ks : Fin 1 → ℕ) (Wb : ∀ t, Matrix (Fin v) (Fin (ks t)) ℝ)
    (x : Matrix (Fin b) ((t : Fin 1) × Fin (ks t)) ℝ) :
    CompositeLinearDecoder.forward ks Wb x =
      CompositeLinearDecoder.forward_single (Wb 0) (Matrix.of fun r j => x r ⟨0, j⟩) := by
  funext r i
  rw [CompositeLinearDecoder.forward, CompositeLinearDecoder.forward_single,
    Matrix.mul_apply, Matrix.mul_apply, ← Finset.univ_sigma_univ, Finset.sum_sigma,
    Fin.sum_univ_one]
  rfl

/-- The zero-entry count of the annotated block, as a filter card over
gene–term pairs. -/
theorem n_deact_genes_card {v n : ℕ} (W : Matrix (Fin v) (Fin n) ℝ) :
    n_deact_genes W = (Finset.univ.filter fun p : Fin v × Fin n => W p.1 p.2 = 0).card := by
  rw [Finset.card_filter, ← Finset.univ_product_univ, Finset.sum_product]
  unfold n_deact_genes
  refine Finset.sum_congr rfl fun i _ => Finset.sum_congr rfl fun j _ => ?_
  by_cases h : W i j = 0
  · rw [if_pos (by rw [h]; simp), if_pos h]
  · rw [if_neg (not_not_intro (abs_pos.mpr h)), if_neg h]

/-- The zero-entry count of the annotation mask, as a filter card over
gene–term pairs. -/
theorem n_inact_genes_card {v n : ℕ} (I : Matrix (Fin v) (Fin n) Bool) :
    n_inact_genes I = (Finset.univ.filter fun p : Fin v × Fin n => I p.1 p.2 = false).card := by
  rw [Finset.card_filter, ← Finset.univ_product_univ, Finset.sum_product]
  unfold n_inact_genes
  refine Finset.sum_congr rfl fun i _ => Finset.sum_congr rfl fun j _ => ?_
  cases h : I i j
  · simp [h]
  · simp [h]

/-- Claim C8 (amended): the emitted deactivated-gene share is the number
of zero entries of the annotated weight block divided by the number of
zero entries of the annotation mask — entries, not whole gene rows. -/
theorem claim_c8 {v n : ℕ} (I : Matrix (Fin v) (Fin n) Bool)
    (W : Matrix (Fin v) (Fin n) ℝ) :
    deact_share I W =
      ((Finset.univ.filter fun p : Fin v × Fin n => W p.1 p.2 = 0).card : ℝ) /
      ((Finset.univ.filter fun p : Fin v × Fin n => I p.1 p.2 = false).card : ℝ) := by
  unfold deact_share
  rw [n_deact_genes_card, n_inact_genes_card]

/-- Claim C8 is false as stated: for the 2×2 mask `[[0,0],[1,1]]` and the
annotated block `[[0,0],[0,1]]`, the code's entry-count ratio is `3/2`
while the claimed row-count ratio is `1`. -/
theorem claim_c8_counterexample :
    deact_share !![false, false; true, true] !![(0 : ℝ), 0; 0, 1] ≠
      deact_share_spec !![false, false; true, true] !![(0 : ℝ), 0; 0, 1] := by
  have e1 : n_deact_genes !![(0 : ℝ), 0; 0, 1] = 3 := by
    unfold n_deact_genes
    rw [Fin.sum_univ_two, Fin.sum_univ_two, Fin.sum_univ_two]
    norm_num
  have e2 : n_inact_genes !![false, false; true, true] = 2 := by decide
  have e3 : (Finset.univ.filter fun i : Fin 2 =>
      ∀ j, (!![(0 : ℝ), 0; 0, 1]) i j = 0).card = 1 := by
    rw [Finset.card_filter, Fin.sum_univ_two]
    norm_num [Fin.forall_fin_two]
  have e4 : (Finset.univ.filter fun i : Fin 2 =>
      (∑ j, (if (!![false, false; true, true]) i j then (1 : ℕ) else 0)) = 0).card = 1 := by
    decide
  have h1 : deact_share !![false, false; true, true] !![(0 : ℝ), 0; 0, 1] = 3 / 2 := by
    unfold deact_share
    rw [e1, e2]
    norm_num
  have h2 : deact_share_spec !![false, false; true, true] !![(0 : ℝ), 0; 0, 1] = 1 := by
    unfold deact_share_spec
    rw [e3, e4]
    norm_num
  rw [h1, h2]
  norm_num
